import Mathlib

/-!
Shallow embedding of `src/RSA_implementation.py` (a small educational RSA
implementation) together with proofs about the claims of its specification.

Python integer arithmetic conventions: Python's `divmod`, `//` and `%` on
integers use flooring division, which corresponds exactly to `Int.fdiv` and
`Int.fmod` in Lean.  Loops are embedded as fuel-based structural recursions;
for each loop we prove that the supplied fuel is sufficient (the result is
unchanged by adding more fuel), which expresses termination of the source
loop.
-/

namespace RSA

/-- The body of the `while y != 0` loop of `extended_gcd`, embedded with
explicit fuel.  Each iteration computes `q, r := divmod(x, y)` and performs
the simultaneous update
`x, y, px, qx, py, qy := y, r, py, qy, px - q*py, qx - q*qy`,
exactly as in the source. -/
def egcdLoop (x y px qx py qy : Int) : Nat → Int × Int × Int
  | 0 => (x, px, qx)
  | fuel + 1 =>
    if y = 0 then (x, px, qx)
    else
      egcdLoop y (Int.fmod x y) py qy
        (px - Int.fdiv x y * py) (qx - Int.fdiv x y * qy) fuel

/-- Model of `extended_gcd(a, b)`: returns `(gcd, p, q)` with the tracked
Bezout coefficients.  The loop strictly decreases `|y|`, so `|b| + 1` units
of fuel always suffice (proved below as `egcdLoop_fuel_irrelevant`). -/
def extended_gcd (a b : Int) : Int × Int × Int :=
  egcdLoop a b 1 0 0 1 (b.natAbs + 1)

/-- Model of `modular_inverse(a, n)`: takes the Bezout coefficient of `a`
from `extended_gcd(a, n)` and normalizes it into `[0, n)` via the double
modulo `(coefficient_p % n + n) % n` (Python flooring `%`).  The source also
extracts the second coefficient into an unused local variable. -/
def modular_inverse (a n : Int) : Int :=
  let coefficient_p := (extended_gcd a n).2.1
  Int.fmod (Int.fmod coefficient_p n + n) n

/-- Auxiliary counting loop computing the least `k` (starting from the second
argument) with `n ≤ k * k`; fuel-based, with enough fuel always supplied by
`ceilSqrt`. -/
def ceilSqrtAux (n : Nat) : Nat → Nat → Nat
  | 0, k => k
  | fuel + 1, k => if n ≤ k * k then k else ceilSqrtAux n fuel (k + 1)

/-- Exact integer value of `math.ceil(math.sqrt(n))`: the least `k` with
`n ≤ k * k`.  (For the sizes handled by this program the floating-point
computation in the source is exact.) -/
def ceilSqrt (n : Nat) : Nat := ceilSqrtAux n (n + 1) 0

/-- Model of `is_prime(n)`: `False` for `n < 2`, `True` for `n = 2`, `False`
for even `n > 2`, and otherwise trial division by the odd integers produced
by `range(3, ceil(sqrt(n)) + 1, 2)`; the Python range with step 2 starting
at 3 and stopping before `ceil(sqrt(n)) + 1` has `(ceilSqrt n - 1) / 2`
elements. -/
def is_prime (n : Int) : Bool :=
  if n < 2 then false
  else if n = 2 then true
  else if Int.fmod n 2 = 0 then false
  else
    !((List.range' 3 ((ceilSqrt n.toNat - 1) / 2) 2).any fun i =>
      Int.fmod n (i : Int) == 0)

/-- The `while count < n` loop of `get_prime_number`, with fuel: each
iteration increments the candidate `prime_number` and, when the candidate is
prime, the counter. -/
def gpnLoop (n : Int) : Int → Int → Nat → Int
  | p, _, 0 => p
  | p, count, fuel + 1 =>
    if count < n then
      gpnLoop n (p + 1) (if is_prime (p + 1) then count + 1 else count) fuel
    else p

/-- Model of `get_prime_number(n)`: starts from `prime_number = 2`,
`count = 1`.  By Bertrand's postulate the n-th prime is below `2 ^ (n + 1)`,
so the loop performs fewer than `2 ^ (n + 1)` iterations and the supplied
fuel is never exhausted. -/
def get_prime_number (n : Int) : Int := gpnLoop n 2 1 (2 ^ (n.toNat + 1))

/-- Model of `compute_totient(p, q) = (p - 1) * (q - 1)`. -/
def compute_totient (p q : Int) : Int := (p - 1) * (q - 1)

/-- Python's `range(a, b)` over integers: `a, a+1, ..., b-1` (empty when
`b ≤ a`). -/
def pyRange (a b : Int) : List Int :=
  (List.range (b - a).toNat).map fun j : Nat => a + (j : Int)

/-- Model of `choose_e(p, q)`: scans `range(2, my_totient - 1)` and returns
the first `i` whose `extended_gcd(i, my_totient)[0]` equals 1; falling
through the loop returns Python `None`, modelled as `Option.none`. -/
def choose_e (p q : Int) : Option Int :=
  let my_totient := compute_totient p q
  (pyRange 2 (my_totient - 1)).find? fun i => (extended_gcd i my_totient).1 == 1

/-- Model of `choose_d(e, p, q) = modular_inverse(e, compute_totient(p, q))`. -/
def choose_d (e p q : Int) : Int :=
  let my_totient := compute_totient p q
  modular_inverse e my_totient

/-- Python's three-argument built-in `pow(base, exp, modulus)` as used by the
program (`exp ≥ 0`): modular exponentiation with flooring modulus. -/
def py_pow (base exp modulus : Int) : Int :=
  Int.fmod (base ^ exp.toNat) modulus

/-- The `communication_party` class: its only instance state is the prime
pair drawn in `__init__`. -/
structure communication_party where
  p : Int
  q : Int

/-- Model of `communication_party.__init__`, with the ambient randomness made
explicit: the two draws from `random.randint(60, 150)` are passed in. -/
def communication_party.init (random_number random_number_b : Int) :
    communication_party :=
  { p := get_prime_number random_number, q := get_prime_number random_number_b }

/-- Method `encrypt(self, message, e, n)`; stateful methods are embedded as
functions returning the post-state together with the return value.  The body
is `return pow(message, e, n)` and contains no assignment to `self`. -/
def communication_party.encrypt (self : communication_party)
    (message e n : Int) : communication_party × Int :=
  (self, py_pow message e n)

/-- Method `decrypt(self, cipher, d, n) = pow(cipher, d, n)`. -/
def communication_party.decrypt (self : communication_party)
    (cipher d n : Int) : communication_party × Int :=
  (self, py_pow cipher d n)

/-- Method `get_public_key(self, e, n) = (e, n)`. -/
def communication_party.get_public_key (self : communication_party)
    (e n : Int) : communication_party × (Int × Int) :=
  (self, (e, n))

/-- Method `get_private_key(self, d, n) = (d, n)`. -/
def communication_party.get_private_key (self : communication_party)
    (d n : Int) : communication_party × (Int × Int) :=
  (self, (d, n))

/-- Key fact about Python's `%` (flooring modulus): the absolute value of
`x % y` is strictly smaller than the absolute value of `y` whenever `y ≠ 0`.
This drives termination of the Euclidean loop. -/
theorem fmod_natAbs_lt (a b : Int) (hb : b ≠ 0) :
    (Int.fmod a b).natAbs < b.natAbs := by
  cases a with
  | ofNat m =>
    cases b with
    | ofNat n =>
      have hn : 0 < n := Nat.pos_of_ne_zero (by simpa using hb)
      have h1 : m % n < n := Nat.mod_lt m hn
      show (((m : Int)).fmod ((n : Int))).natAbs < ((n : Int)).natAbs
      rw [← Int.ofNat_fmod, Int.natAbs_cast, Int.natAbs_cast]
      exact h1
    | negSucc n =>
      cases m with
      | zero =>
        have h0 : Int.fmod 0 (Int.negSucc n) = 0 := Int.zero_fmod _
        simp [h0]
      | succ k =>
        have hstep : Int.fmod (Int.ofNat (k + 1)) (Int.negSucc n) =
            Int.subNatNat (k % (n + 1)) n := rfl
        have h1 : k % (n + 1) ≤ n := Nat.lt_succ_iff.mp (Nat.mod_lt _ (Nat.succ_pos n))
        have h2 : (↑(k % (n + 1)) - ↑n : Int) = -↑(n - k % (n + 1)) := by
          rw [Int.ofNat_sub h1]; ring
        rw [hstep, Int.subNatNat_eq_coe, h2, Int.natAbs_neg, Int.natAbs_cast,
          Int.natAbs_negSucc]
        omega
  | negSucc m =>
    cases b with
    | ofNat n =>
      have hn : n ≠ 0 := by simpa using hb
      obtain ⟨j, rfl⟩ := Nat.exists_eq_succ_of_ne_zero hn
      have hstep : Int.fmod (Int.negSucc m) (Int.ofNat (j + 1)) =
          Int.subNatNat (j + 1) (m % (j + 1) + 1) := rfl
      have h1 : m % (j + 1) < j + 1 := Nat.mod_lt _ (Nat.succ_pos j)
      rw [hstep, Int.subNatNat_eq_coe]
      simp only [Int.ofNat_eq_coe]
      omega
    | negSucc n =>
      have hstep : Int.fmod (Int.negSucc m) (Int.negSucc n) =
          -Int.ofNat ((m + 1) % (n + 1)) := rfl
      have h1 : (m + 1) % (n + 1) < n + 1 := Nat.mod_lt _ (Nat.succ_pos n)
      rw [hstep]
      simp only [Int.ofNat_eq_coe]
      rw [Int.natAbs_neg, Int.natAbs_cast, Int.natAbs_negSucc]
      exact h1

/-- The result of the Euclidean loop does not depend on the fuel, as long as
the fuel exceeds `|y|`.  This is the termination argument for the source's
`while` loop. -/
theorem egcdLoop_fuel_irrelevant :
    ∀ (f f' : Nat) (x y px qx py qy : Int), y.natAbs < f → y.natAbs < f' →
      egcdLoop x y px qx py qy f = egcdLoop x y px qx py qy f' := by
  intro f
  induction f with
  | zero => intro f' x y px qx py qy h; omega
  | succ f ih =>
    intro f' x y px qx py qy h h'
    cases f' with
    | zero => omega
    | succ f' =>
      by_cases hy : y = 0
      · simp [egcdLoop, hy]
      · have hlt : (Int.fmod x y).natAbs < y.natAbs := fmod_natAbs_lt x y hy
        simp only [egcdLoop, if_neg hy]
        exact ih f' y (Int.fmod x y) py qy _ _ (by omega) (by omega)

/-- Loop invariant L.I.2 / L.I.3 of the source: the returned first component
is the tracked linear combination of the original inputs. -/
theorem egcdLoop_bezout :
    ∀ (f : Nat) (x y px qx py qy a b : Int), y.natAbs < f →
      x = px * a + qx * b → y = py * a + qy * b →
      (egcdLoop x y px qx py qy f).1 =
        (egcdLoop x y px qx py qy f).2.1 * a +
          (egcdLoop x y px qx py qy f).2.2 * b := by
  intro f
  induction f with
  | zero => intro x y px qx py qy a b h; omega
  | succ f ih =>
    intro x y px qx py qy a b h hx hy
    by_cases hy0 : y = 0
    · simpa [egcdLoop, hy0] using hx
    · have hlt : (Int.fmod x y).natAbs < y.natAbs := fmod_natAbs_lt x y hy0
      simp only [egcdLoop, if_neg hy0]
      refine ih y (Int.fmod x y) py qy _ _ a b (by omega) hy ?_
      have hdecomp : Int.fmod x y + y * Int.fdiv x y = x := Int.fmod_add_fdiv x y
      have : Int.fmod x y = x - Int.fdiv x y * y := by linarith [hdecomp]
      rw [this, hx, hy]; ring

/-- One Euclidean step preserves the (nonnegative) gcd:
`gcd y (x % y) = gcd x y` (with Python flooring `%`). -/
theorem gcd_fmod_right (x y : Int) : Int.gcd y (Int.fmod x y) = Int.gcd x y := by
  have hdecomp : Int.fmod x y = x - y * Int.fdiv x y := by
    have h := Int.fmod_add_fdiv x y
    linarith
  apply Nat.dvd_antisymm
  · rw [← Int.natCast_dvd_natCast]
    apply Int.dvd_gcd
    · have h1 : (↑(Int.gcd y (Int.fmod x y)) : Int) ∣ y := Int.gcd_dvd_left
      have h2 : (↑(Int.gcd y (Int.fmod x y)) : Int) ∣ Int.fmod x y := Int.gcd_dvd_right
      have hsum : (↑(Int.gcd y (Int.fmod x y)) : Int) ∣
          Int.fmod x y + y * Int.fdiv x y := dvd_add h2 (h1.mul_right _)
      rwa [Int.fmod_add_fdiv] at hsum
    · exact Int.gcd_dvd_left
  · rw [← Int.natCast_dvd_natCast]
    apply Int.dvd_gcd
    · exact Int.gcd_dvd_right
    · rw [hdecomp]
      exact dvd_sub Int.gcd_dvd_left (Int.gcd_dvd_right.mul_right _)

/-- The absolute value of the first component returned by the loop is the gcd
of the pair it was entered with. -/
theorem egcdLoop_gcd_natAbs :
    ∀ (f : Nat) (x y px qx py qy : Int), y.natAbs < f →
      (egcdLoop x y px qx py qy f).1.natAbs = Int.gcd x y := by
  intro f
  induction f with
  | zero => intro x y px qx py qy h; omega
  | succ f ih =>
    intro x y px qx py qy h
    by_cases hy0 : y = 0
    · simp [egcdLoop, hy0, Int.gcd_zero_right]
    · have hlt : (Int.fmod x y).natAbs < y.natAbs := fmod_natAbs_lt x y hy0
      simp only [egcdLoop, if_neg hy0]
      rw [ih y (Int.fmod x y) _ _ _ _ (by omega)]
      exact gcd_fmod_right x y

/-- When the loop is entered with `0 ≤ y < x`, the first component of the
result is exactly the (nonnegative) gcd. -/
theorem egcdLoop_gcd_of_nonneg :
    ∀ (f : Nat) (x y px qx py qy : Int), 0 ≤ y → y < x → y.natAbs < f →
      (egcdLoop x y px qx py qy f).1 = ↑(Int.gcd x y) := by
  intro f
  induction f with
  | zero => intro x y px qx py qy _ _ h; omega
  | succ f ih =>
    intro x y px qx py qy hy hyx h
    by_cases hy0 : y = 0
    · subst hy0
      have hx : (0:Int) ≤ x := le_of_lt hyx
      simp [egcdLoop, Int.gcd_zero_right, Int.natAbs_of_nonneg hx]
    · have hypos : 0 < y := lt_of_le_of_ne hy (Ne.symm hy0)
      have hlt : (Int.fmod x y).natAbs < y.natAbs := fmod_natAbs_lt x y hy0
      simp only [egcdLoop, if_neg hy0]
      rw [ih y (Int.fmod x y) _ _ _ _ (Int.fmod_nonneg' x hypos)
        (Int.fmod_lt_of_pos x hypos) (by omega)]
      rw [gcd_fmod_right x y]

/-- Bezout identity for `extended_gcd`: writing `(g, p, q)` for the result,
`g = p * a + q * b` for all integer inputs. -/
theorem extended_gcd_bezout (a b : Int) :
    (extended_gcd a b).1 =
      (extended_gcd a b).2.1 * a + (extended_gcd a b).2.2 * b :=
  egcdLoop_bezout _ a b 1 0 0 1 a b (by omega) (by ring) (by ring)

/-- The first component of `extended_gcd a b` is `gcd |a| |b|` up to sign. -/
theorem extended_gcd_natAbs (a b : Int) :
    (extended_gcd a b).1.natAbs = Int.gcd a b :=
  egcdLoop_gcd_natAbs _ a b 1 0 0 1 (by omega)

/-- For a positive second argument the first component of `extended_gcd` is
exactly the nonnegative gcd. -/
theorem extended_gcd_fst_of_pos (a : Int) {b : Int} (hb : 0 < b) :
    (extended_gcd a b).1 = ↑(Int.gcd a b) := by
  have hb0 : b ≠ 0 := ne_of_gt hb
  have hmn : 0 ≤ Int.fmod a b := Int.fmod_nonneg' a hb
  have hml : Int.fmod a b < b := Int.fmod_lt_of_pos a hb
  have hfuel : (Int.fmod a b).natAbs < b.natAbs := fmod_natAbs_lt a b hb0
  unfold extended_gcd
  simp only [egcdLoop, if_neg hb0]
  rw [egcdLoop_gcd_of_nonneg _ b (Int.fmod a b) _ _ _ _ hmn hml hfuel]
  rw [gcd_fmod_right a b]

/-- With `b = 0` the loop is never entered and `extended_gcd a 0 = (a, 1, 0)`. -/
theorem extended_gcd_zero_right (a : Int) : extended_gcd a 0 = (a, 1, 0) := rfl


/-- For a positive modulus the double flooring modulo of the source collapses
to a single Euclidean remainder. -/
theorem modular_inverse_eq_emod (a : Int) {n : Int} (hn : 0 < n) :
    modular_inverse a n = (extended_gcd a n).2.1 % n := by
  unfold modular_inverse
  rw [Int.fmod_eq_emod _ (le_of_lt hn), Int.fmod_eq_emod _ (le_of_lt hn),
    Int.add_emod_self, Int.emod_emod_of_dvd _ dvd_rfl]

/-- Functional correctness of `modular_inverse` under its precondition: for
coprime `a` and `n` with `n > 1` the result lies in `[0, n)` and multiplies
with `a` to `1` modulo `n`. -/
theorem modular_inverse_spec (a : Int) {n : Int} (hn : 1 < n)
    (hg : Int.gcd a n = 1) :
    0 ≤ modular_inverse a n ∧ modular_inverse a n < n ∧
      (a * modular_inverse a n) % n = 1 := by
  have hn0 : 0 < n := by omega
  have heq := modular_inverse_eq_emod a hn0
  have hg1 : (extended_gcd a n).1 = 1 := by
    rw [extended_gcd_fst_of_pos a hn0, hg, Nat.cast_one]
  have hb := extended_gcd_bezout a n
  rw [hg1] at hb
  refine ⟨?_, ?_, ?_⟩
  · rw [heq]; exact Int.emod_nonneg _ (ne_of_gt hn0)
  · rw [heq]; exact Int.emod_lt_of_pos _ hn0
  · rw [heq, Int.mul_emod, Int.emod_emod_of_dvd _ dvd_rfl, ← Int.mul_emod]
    have hax : a * (extended_gcd a n).2.1 =
        1 + n * (-(extended_gcd a n).2.2) := by linear_combination -hb
    rw [hax, Int.add_mul_emod_self_left]
    exact Int.emod_eq_of_lt (by norm_num) hn

/-- With a non-coprime pair the value silently returned by `modular_inverse`
is congruent to `gcd a n` modulo `n`, hence is never an inverse. -/
theorem modular_inverse_not_inverse (a : Int) {n : Int} (hn : 0 < n)
    (hg : Int.gcd a n ≠ 1) :
    (a * modular_inverse a n) % n ≠ 1 := by
  have heq := modular_inverse_eq_emod a hn
  have hg1 : (extended_gcd a n).1 = ((Int.gcd a n : ℕ) : Int) :=
    extended_gcd_fst_of_pos a hn
  have hb := extended_gcd_bezout a n
  rw [hg1] at hb
  rw [heq, Int.mul_emod, Int.emod_emod_of_dvd _ dvd_rfl, ← Int.mul_emod]
  have hax : a * (extended_gcd a n).2.1 =
      ((Int.gcd a n : ℕ) : Int) + n * (-(extended_gcd a n).2.2) := by
    linear_combination -hb
  rw [hax, Int.add_mul_emod_self_left]
  have hdvd : ((Int.gcd a n : ℕ) : Int) ∣ n := Int.gcd_dvd_right
  have hle : ((Int.gcd a n : ℕ) : Int) ≤ n := Int.le_of_dvd hn hdvd
  rcases eq_or_lt_of_le hle with hcase | hcase
  · rw [hcase, Int.emod_self]
    norm_num
  · rw [Int.emod_eq_of_lt (by positivity) hcase]
    exact_mod_cast hg

/-- Claim C2 (amended).  For all integers `a`, `b`, `extended_gcd a b = (g, x, y)`
satisfies the Bezout identity `g = x * a + y * b`, and `|g| = gcd |a| |b|`;
`g` equals `gcd |a| |b|` itself whenever `b > 0`, and for `b = 0` the result
is `(a, 1, 0)`.  (The unamended claim `g = gcd |a| |b|` fails for negative
`b`: see the counterexample.) -/
theorem extended_gcd_spec (a b : Int) :
    (extended_gcd a b).1 =
        (extended_gcd a b).2.1 * a + (extended_gcd a b).2.2 * b ∧
      (extended_gcd a b).1.natAbs = Int.gcd a b ∧
      (0 < b → (extended_gcd a b).1 = ((Int.gcd a b : ℕ) : Int)) ∧
      (b = 0 → extended_gcd a b = (a, 1, 0)) :=
  ⟨extended_gcd_bezout a b, extended_gcd_natAbs a b,
    fun hb => extended_gcd_fst_of_pos a hb,
    fun hb => hb ▸ extended_gcd_zero_right a⟩

/-- Witness for claim C2: the amended statement evaluated at `(10, 3)` and at
`(7, 0)`. -/
theorem extended_gcd_spec_witness :
    (extended_gcd 10 3).1 = ((Int.gcd 10 3 : ℕ) : Int) ∧
      extended_gcd 7 0 = (7, 1, 0) :=
  ⟨(extended_gcd_spec 10 3).2.2.1 (by norm_num),
    (extended_gcd_spec 7 0).2.2.2 rfl⟩

/-- Counterexample to claim C2 as stated: at `a = 1`, `b = -1` the returned
first component is `-1`, not `gcd |1| |-1| = 1` (Python's flooring `divmod`
makes the final remainder carry the sign of `b`). -/
theorem extended_gcd_gcd_counterexample :
    (extended_gcd 1 (-1)).1 = -1 ∧ Int.gcd 1 (-1) = 1 ∧
      (extended_gcd 1 (-1)).1 ≠ ((Int.gcd 1 (-1) : ℕ) : Int) := by decide

/-- Claim C7: `extended_gcd` is total.  The `while` loop reaches `y = 0`
within `|b| + 1` iterations for every pair of integer inputs: running the
loop with any amount of additional fuel yields the same result, i.e. the
fuel embedding never truncates the computation. -/
theorem extended_gcd_total (a b : Int) (k : Nat) :
    egcdLoop a b 1 0 0 1 (b.natAbs + 1 + k) = extended_gcd a b :=
  egcdLoop_fuel_irrelevant _ _ a b 1 0 0 1 (by omega) (by omega)

/-- Claim C3: for coprime `a` and `n` with `n > 1`, `modular_inverse a n`
lies in `[0, n)` and `(a * modular_inverse a n) mod n = 1`. -/
theorem modular_inverse_correct (a : Int) {n : Int} (hn : 1 < n)
    (hg : Int.gcd a n = 1) :
    0 ≤ modular_inverse a n ∧ modular_inverse a n < n ∧
      (a * modular_inverse a n) % n = 1 :=
  modular_inverse_spec a hn hg

/-- Witness for claim C3 at `a = 3`, `n = 10`. -/
theorem modular_inverse_correct_witness :
    0 ≤ modular_inverse 3 10 ∧ modular_inverse 3 10 < 10 ∧
      (3 * modular_inverse 3 10) % 10 = 1 :=
  modular_inverse_correct 3 (by norm_num) (by decide)

/-- Claim C4 (amended): `modular_inverse` performs no coprimality check and
never signals an error.  For every `a` and `n > 0` — coprime or not — it
silently returns a number in `[0, n)`, and when `gcd(a, n) ≠ 1` that number
is not a modular inverse of `a`. -/
theorem modular_inverse_silent_on_non_coprime (a : Int) {n : Int}
    (hn : 0 < n) (hg : Int.gcd a n ≠ 1) :
    0 ≤ modular_inverse a n ∧ modular_inverse a n < n ∧
      (a * modular_inverse a n) % n ≠ 1 := by
  have heq := modular_inverse_eq_emod a hn
  refine ⟨?_, ?_, modular_inverse_not_inverse a hn hg⟩
  · rw [heq]; exact Int.emod_nonneg _ (ne_of_gt hn)
  · rw [heq]; exact Int.emod_lt_of_pos _ hn

/-- Witness for (amended) claim C4 at `a = 2`, `n = 4`. -/
theorem modular_inverse_silent_witness :
    0 ≤ modular_inverse 2 4 ∧ modular_inverse 2 4 < 4 ∧
      (2 * modular_inverse 2 4) % 4 ≠ 1 :=
  modular_inverse_silent_on_non_coprime 2 (by norm_num) (by decide)

/-- Counterexample to claim C4 as stated: for `a = 2`, `n = 4` we have
`gcd(2, 4) = 2 ≠ 1`, yet `modular_inverse` does not fail — it silently
returns the number `1`, and `2 * 1 mod 4 = 2 ≠ 1`. -/
theorem modular_inverse_failure_counterexample :
    Int.gcd 2 4 ≠ 1 ∧ modular_inverse 2 4 = 1 ∧
      (2 * modular_inverse 2 4) % 4 ≠ 1 := by decide

/-- An empty Python range. -/
theorem pyRange_empty {a b : Int} (h : b ≤ a) : pyRange a b = [] := by
  unfold pyRange
  have h0 : (b - a).toNat = 0 := by omega
  rw [h0]
  rfl

/-- Unfolding a nonempty Python range from the left. -/
theorem pyRange_cons {a b : Int} (h : a < b) :
    pyRange a b = a :: pyRange (a + 1) b := by
  unfold pyRange
  have h0 : (b - a).toNat = (b - (a + 1)).toNat + 1 := by omega
  rw [h0, List.range_succ_eq_map, List.map_cons, List.map_map]
  simp only [Int.ofNat_eq_coe, Nat.cast_zero, add_zero]
  congr 1
  apply List.map_congr_left
  intro j _
  simp only [Function.comp_apply, Nat.succ_eq_add_one]
  push_cast
  ring

/-- Membership in a Python range. -/
theorem mem_pyRange {a b x : Int} : x ∈ pyRange a b ↔ a ≤ x ∧ x < b := by
  unfold pyRange
  simp only [List.mem_map, List.mem_range]
  constructor
  · rintro ⟨j, hj, rfl⟩
    omega
  · rintro ⟨h1, h2⟩
    exact ⟨(x - a).toNat, by omega, by omega⟩

/-- Characterization of a successful linear scan over a Python range: the
found element satisfies the predicate, lies in the range, and is minimal. -/
theorem pyRange_find?_some_iff :
    ∀ (n : Nat) (a b : Int), (b - a).toNat = n → ∀ (p : Int → Bool) (e : Int),
      ((pyRange a b).find? p = some e ↔
        (a ≤ e ∧ e < b ∧ p e = true ∧ ∀ i, a ≤ i → i < e → p i = false)) := by
  intro n
  induction n with
  | zero =>
    intro a b hn p e
    rw [pyRange_empty (by omega)]
    simp only [List.find?_nil]
    constructor
    · intro h; exact Option.noConfusion h
    · rintro ⟨h1, h2, -, -⟩; omega
  | succ n ih =>
    intro a b hn p e
    have hab : a < b := by omega
    rw [pyRange_cons hab]
    by_cases hpa : p a = true
    · rw [List.find?_cons_of_pos _ hpa]
      constructor
      · intro h
        have he : a = e := by injection h
        subst he
        exact ⟨le_refl a, hab, hpa, fun i h1 h2 => absurd (lt_of_le_of_lt h1 h2) (lt_irrefl a)⟩
      · rintro ⟨h1, h2, hpe, hmin⟩
        rcases eq_or_lt_of_le h1 with rfl | hlt
        · rfl
        · have hfalse := hmin a (le_refl a) hlt
          rw [hpa] at hfalse
          simp at hfalse
    · have hpa' : ¬ p a := by simpa using hpa
      rw [List.find?_cons_of_neg _ hpa']
      rw [ih (a + 1) b (by omega) p e]
      constructor
      · rintro ⟨h1, h2, hpe, hmin⟩
        refine ⟨by omega, h2, hpe, fun i hi1 hi2 => ?_⟩
        rcases eq_or_lt_of_le hi1 with rfl | hlt
        · simpa using hpa'
        · exact hmin i (by omega) hi2
      · rintro ⟨h1, h2, hpe, hmin⟩
        have hne : e ≠ a := by
          rintro rfl
          exact hpa' (by simpa using hpe)
        refine ⟨by omega, h2, hpe, fun i hi1 hi2 => hmin i (by omega) hi2⟩

/-- A failing linear scan over a Python range: no element satisfies the
predicate. -/
theorem pyRange_find?_none_iff (a b : Int) (p : Int → Bool) :
    ((pyRange a b).find? p = none ↔ ∀ i, a ≤ i → i < b → p i = false) := by
  rw [List.find?_eq_none]
  constructor
  · intro h i h1 h2
    simpa using h i (mem_pyRange.mpr ⟨h1, h2⟩)
  · intro h x hx
    have := h x (mem_pyRange.mp hx).1 (mem_pyRange.mp hx).2
    simp [this]

/-- Inside the scan range of `choose_e` the test
`extended_gcd(i, my_totient)[0] == 1` coincides with coprimality to the
totient. -/
theorem choose_e_test_iff {i t : Int} (h2 : 2 ≤ i) (hlt : i < t - 1) :
    (((extended_gcd i t).1 == 1) = true ↔ Int.gcd i t = 1) := by
  have ht : 0 < t := by omega
  rw [beq_iff_eq, extended_gcd_fst_of_pos i ht]
  constructor
  · intro h; exact_mod_cast h
  · intro h; exact_mod_cast h

/-- Unfolding of `choose_e`. -/
theorem choose_e_def (p q : Int) :
    choose_e p q = (pyRange 2 (compute_totient p q - 1)).find?
      fun i => (extended_gcd i (compute_totient p q)).1 == 1 := rfl

/-- Negated form of the scan test. -/
theorem choose_e_test_false_iff {i t : Int} (h2 : 2 ≤ i) (hlt : i < t - 1) :
    (((extended_gcd i t).1 == 1) = false ↔ Int.gcd i t ≠ 1) := by
  rw [Bool.eq_false_iff]
  exact not_congr (choose_e_test_iff h2 hlt)

/-- Claim C6: `choose_e p q` scans `range(2, φ - 1)` for `φ` the totient;
it returns `some e` exactly when `e` is the smallest candidate in the scan
range coprime to `φ`, and falls through to `None` exactly when no candidate
in the scan range is coprime to `φ`. -/
theorem choose_e_correct (p q : Int) :
    (∀ e : Int, choose_e p q = some e ↔
        (2 ≤ e ∧ e < compute_totient p q - 1 ∧
          Int.gcd e (compute_totient p q) = 1 ∧
          ∀ i : Int, 2 ≤ i → i < e → Int.gcd i (compute_totient p q) ≠ 1)) ∧
      (choose_e p q = none ↔
        ∀ i : Int, 2 ≤ i → i < compute_totient p q - 1 →
          Int.gcd i (compute_totient p q) ≠ 1) := by
  constructor
  · intro e
    rw [choose_e_def,
      pyRange_find?_some_iff ((compute_totient p q - 1 - 2).toNat) 2 _ rfl]
    constructor
    · rintro ⟨h1, h2, hp, hmin⟩
      refine ⟨h1, h2, (choose_e_test_iff h1 h2).mp hp, fun i hi1 hi2 => ?_⟩
      exact (choose_e_test_false_iff hi1 (lt_trans hi2 h2)).mp (hmin i hi1 hi2)
    · rintro ⟨h1, h2, hgcd, hmin⟩
      refine ⟨h1, h2, (choose_e_test_iff h1 h2).mpr hgcd, fun i hi1 hi2 => ?_⟩
      exact (choose_e_test_false_iff hi1 (lt_trans hi2 h2)).mpr (hmin i hi1 hi2)
  · rw [choose_e_def, pyRange_find?_none_iff]
    constructor
    · intro h i h1 h2
      exact (choose_e_test_false_iff h1 h2).mp (h i h1 h2)
    · intro h i h1 h2
      exact (choose_e_test_false_iff h1 h2).mpr (h i h1 h2)

/-- Claim C9: whenever the totient `(p-1)*(q-1)` is at most 3, the scan
range `range(2, φ - 1)` of `choose_e` is empty, so the function falls
through and returns `None`. -/
theorem choose_e_none_of_small_totient (p q : Int)
    (h : compute_totient p q ≤ 3) : choose_e p q = none := by
  rw [choose_e_def, pyRange_empty (by omega)]
  rfl

/-- Witness for claim C9 at the prime pair `(2, 3)` (totient 2). -/
theorem choose_e_none_of_small_totient_witness : choose_e 2 3 = none :=
  choose_e_none_of_small_totient 2 3 (by decide)

/-- Claim C10: the four methods of `communication_party` neither read nor
modify the instance fields `p` and `q`: each call leaves the instance state
unchanged, and the returned value is the same for any two instance states
given the same explicit arguments. -/
theorem communication_party_methods_pure (s s' : communication_party)
    (message cipher e d n : Int) :
    (s.encrypt message e n).1 = s ∧
      (s.encrypt message e n).2 = (s'.encrypt message e n).2 ∧
      (s.decrypt cipher d n).1 = s ∧
      (s.decrypt cipher d n).2 = (s'.decrypt cipher d n).2 ∧
      (s.get_public_key e n).1 = s ∧
      (s.get_public_key e n).2 = (s'.get_public_key e n).2 ∧
      (s.get_private_key d n).1 = s ∧
      (s.get_private_key d n).2 = (s'.get_private_key d n).2 :=
  ⟨rfl, rfl, rfl, rfl, rfl, rfl, rfl, rfl⟩

/-- Claim C8: for every `n ≤ 1` (including 0 and negative values) the
counting loop of `get_prime_number` is never entered, so the initial
candidate 2 is returned — the same value as `get_prime_number 1`. -/
theorem get_prime_number_of_le_one {n : Int} (h : n ≤ 1) :
    get_prime_number n = 2 ∧ get_prime_number n = get_prime_number 1 := by
  have h2 : get_prime_number n = 2 := by
    unfold get_prime_number
    obtain ⟨f, hf⟩ : ∃ f, 2 ^ (n.toNat + 1) = f + 1 :=
      ⟨2 ^ (n.toNat + 1) - 1, by
        have h1 : 1 ≤ 2 ^ (n.toNat + 1) := Nat.one_le_two_pow
        omega⟩
    rw [hf]
    simp only [gpnLoop, if_neg (show ¬ (1:Int) < n by omega)]
  exact ⟨h2, by rw [h2]; rfl⟩

/-- Witness for claim C8 at `n = -3`. -/
theorem get_prime_number_of_le_one_witness :
    get_prime_number (-3) = 2 ∧ get_prime_number (-3) = get_prime_number 1 :=
  get_prime_number_of_le_one (by norm_num)

/-- Specification of the counting loop behind `ceilSqrt`: with enough fuel it
returns the least `k' ≥ k` with `n ≤ k' * k'`. -/
theorem ceilSqrtAux_spec :
    ∀ (f k n : Nat), n ≤ (k + f) * (k + f) →
      (n ≤ ceilSqrtAux n f k * ceilSqrtAux n f k ∧ k ≤ ceilSqrtAux n f k ∧
        ∀ j, k ≤ j → n ≤ j * j → ceilSqrtAux n f k ≤ j) := by
  intro f
  induction f with
  | zero =>
    intro k n h
    simp only [ceilSqrtAux]
    exact ⟨by simpa using h, le_refl k, fun j hj _ => hj⟩
  | succ f ih =>
    intro k n h
    by_cases hk : n ≤ k * k
    · simp only [ceilSqrtAux, if_pos hk]
      exact ⟨hk, le_refl k, fun j hj _ => hj⟩
    · have h' : n ≤ (k + 1 + f) * (k + 1 + f) := by
        have harr : k + (f + 1) = k + 1 + f := by omega
        rwa [harr] at h
      have spec := ih (k + 1) n h'
      simp only [ceilSqrtAux, if_neg hk]
      refine ⟨spec.1, le_trans (Nat.le_succ k) spec.2.1, fun j hj hjj => ?_⟩
      rcases eq_or_lt_of_le hj with rfl | hlt
      · exact absurd hjj hk
      · exact spec.2.2 j hlt hjj

/-- `ceilSqrt n` is the least `k` with `n ≤ k * k`, i.e. the exact value of
`math.ceil(math.sqrt(n))`. -/
theorem ceilSqrt_spec (n : Nat) :
    n ≤ ceilSqrt n * ceilSqrt n ∧ ∀ j, n ≤ j * j → ceilSqrt n ≤ j := by
  have h0 : n ≤ (0 + (n + 1)) * (0 + (n + 1)) := by nlinarith
  have spec := ceilSqrtAux_spec (n + 1) 0 n h0
  exact ⟨spec.1, fun j hj => spec.2.2 j (Nat.zero_le j) hj⟩

/-- The ceiling square root dominates the floor square root. -/
theorem sqrt_le_ceilSqrt (n : Nat) : Nat.sqrt n ≤ ceilSqrt n :=
  calc Nat.sqrt n ≤ Nat.sqrt (ceilSqrt n * ceilSqrt n) :=
        Nat.sqrt_le_sqrt (ceilSqrt_spec n).1
    _ = ceilSqrt n := Nat.sqrt_eq _

/-- The ceiling square root exceeds the floor square root by at most one. -/
theorem ceilSqrt_le_succ_sqrt (n : Nat) : ceilSqrt n ≤ Nat.sqrt n + 1 :=
  (ceilSqrt_spec n).2 _ (le_of_lt (Nat.lt_succ_sqrt n))

/-- Membership in the odd scan range `range(3, c + 1, 2)` used by
`is_prime`: exactly the odd numbers between 3 and `c`. -/
theorem mem_oddRange_iff {c i : Nat} :
    i ∈ List.range' 3 ((c - 1) / 2) 2 ↔ 3 ≤ i ∧ i ≤ c ∧ i % 2 = 1 := by
  rw [List.mem_range']
  constructor
  · rintro ⟨j, hj, rfl⟩
    omega
  · rintro ⟨h3, hc, hodd⟩
    exact ⟨(i - 3) / 2, by omega, by omega⟩

/-- `is_prime` agrees exactly with mathematical primality: it returns `true`
on an integer `n` iff `n ≥ 2` and `n` is a prime number. -/
theorem is_prime_iff (n : Int) :
    is_prime n = true ↔ 2 ≤ n ∧ Nat.Prime n.toNat := by
  by_cases h2 : n < 2
  · simp only [is_prime, if_pos h2]
    constructor
    · intro h; exact Bool.noConfusion h
    · rintro ⟨h, -⟩; omega
  · push_neg at h2
    by_cases heq : n = 2
    · subst heq
      constructor
      · intro _; exact ⟨by norm_num, by decide⟩
      · intro _; decide
    · have h3 : 3 ≤ n := by omega
      have hN3 : 3 ≤ n.toNat := by omega
      by_cases heven : Int.fmod n 2 = 0
      · simp only [is_prime, if_neg (show ¬ n < 2 by omega), if_neg heq,
          if_pos heven]
        constructor
        · intro h; exact Bool.noConfusion h
        · rintro ⟨-, hp⟩
          exfalso
          have hdvd : (2 : Int) ∣ n := Int.dvd_of_emod_eq_zero
            (by rwa [Int.fmod_eq_emod _ (by norm_num)] at heven)
          obtain ⟨c, hc⟩ := hdvd
          have hdvdN : 2 ∣ n.toNat := ⟨c.toNat, by omega⟩
          rcases hp.eq_one_or_self_of_dvd 2 hdvdN with hh | hh
          · omega
          · omega
      · simp only [is_prime, if_neg (show ¬ n < 2 by omega), if_neg heq,
          if_neg heven]
        rw [Bool.not_eq_true', List.any_eq_false]
        have hNodd : n.toNat % 2 = 1 := by
          rw [Int.fmod_eq_emod _ (by norm_num)] at heven
          omega
        have hdvd_iff : ∀ x : Nat, 0 < x →
            ((Int.fmod n (x : Int) == 0) = true ↔ x ∣ n.toNat) := by
          intro x hx
          rw [beq_iff_eq, Int.fmod_eq_emod _ (by positivity)]
          constructor
          · intro h
            have hxd : (x : Int) ∣ n := Int.dvd_of_emod_eq_zero h
            obtain ⟨c, hc⟩ := hxd
            have hxpos : (0 : Int) < (x : Int) := by exact_mod_cast hx
            have hcpos : 0 < c := by nlinarith
            have hcn : c = ((c.toNat : Nat) : Int) :=
              (Int.toNat_of_nonneg (le_of_lt hcpos)).symm
            refine ⟨c.toNat, ?_⟩
            have h1 : ((n.toNat : Nat) : Int) = (x : Int) * ((c.toNat : Nat) : Int) := by
              rw [Int.toNat_of_nonneg (show (0:Int) ≤ n by omega), ← hcn]
              exact hc
            exact_mod_cast h1
          · intro h
            refine Int.emod_eq_zero_of_dvd ?_
            obtain ⟨c, hc⟩ := h
            refine ⟨(c : Int), ?_⟩
            have hn : n = ((n.toNat : Nat) : Int) :=
              (Int.toNat_of_nonneg (show (0:Int) ≤ n by omega)).symm
            rw [hn, hc]
            push_cast
            ring
        constructor
        · intro hno
          refine ⟨h2, ?_⟩
          rw [Nat.prime_def_le_sqrt]
          refine ⟨by omega, fun m hm2 hmsqrt hdvd => ?_⟩
          by_cases hme : m % 2 = 0
          · obtain ⟨u, hu⟩ : 2 ∣ n.toNat := dvd_trans ⟨m / 2, by omega⟩ hdvd
            omega
          · have hm3 : 3 ≤ m := by omega
            have hmc : m ≤ ceilSqrt n.toNat :=
              le_trans hmsqrt (sqrt_le_ceilSqrt n.toNat)
            have hmem : m ∈ List.range' 3 ((ceilSqrt n.toNat - 1) / 2) 2 :=
              mem_oddRange_iff.mpr ⟨hm3, hmc, by omega⟩
            exact hno m hmem ((hdvd_iff m (by omega)).mpr hdvd)
        · rintro ⟨-, hp⟩ x hxmem hxtest
          obtain ⟨hx3, hxc, hxodd⟩ := mem_oddRange_iff.mp hxmem
          have hxdvd : x ∣ n.toNat := (hdvd_iff x (by omega)).mp hxtest
          rcases hp.eq_one_or_self_of_dvd x hxdvd with hh | hh
          · omega
          · have hc1 := ceilSqrt_le_succ_sqrt n.toNat
            have hc2 : n.toNat - 1 ≤ Nat.sqrt n.toNat := by omega
            have hc3 : (n.toNat - 1) * (n.toNat - 1) ≤ n.toNat :=
              Nat.le_sqrt.mp hc2
            have hc4 : 2 * (n.toNat - 1) ≤ (n.toNat - 1) * (n.toNat - 1) :=
              Nat.mul_le_mul_right _ (by omega)
            omega

/-- Claim C5: for every integer `n` in `[0, 1000]`, `is_prime n` returns
`true` exactly when `n` is prime (in this range the floating-point
`ceil(sqrt(n))` of the source is exact, as modelled by `ceilSqrt`); in
particular the listed concrete values hold.  (The agreement with primality
is proved here for all `n`, not only the claimed range.) -/
theorem is_prime_correct :
    (∀ n : Int, 0 ≤ n → n ≤ 1000 → (is_prime n = true ↔ Nat.Prime n.toNat)) ∧
      is_prime 2 = true ∧ is_prime 4 = false ∧ is_prime 11 = true ∧
      is_prime 15 = false := by
  refine ⟨fun n h0 h1000 => ?_, by decide, by decide, by decide, by decide⟩
  rw [is_prime_iff]
  constructor
  · rintro ⟨-, hp⟩; exact hp
  · intro hp
    have h2 := hp.two_le
    exact ⟨by omega, hp⟩

/-- Witness for claim C5 at `n = 11`. -/
theorem is_prime_correct_witness :
    is_prime 11 = true ↔ Nat.Prime ((11 : Int)).toNat :=
  is_prime_correct.1 11 (by norm_num) (by norm_num)

/-- Fermat's little theorem in the form needed for RSA: for any prime `p`
and any exponent of the shape `1 + (p-1)*j`, exponentiation fixes every
residue modulo `p` (including residues not coprime to `p`). -/
theorem rsa_fermat_step (p : Nat) (hp : p.Prime) (M j : Nat) :
    M ^ (1 + (p - 1) * j) ≡ M [MOD p] := by
  by_cases hdvd : p ∣ M
  · have h0 : M ≡ 0 [MOD p] := (Nat.modEq_zero_iff_dvd).mpr hdvd
    have h1 : M ^ (1 + (p - 1) * j) = M * M ^ ((p - 1) * j) := by
      rw [pow_add, pow_one]
    rw [h1]
    calc M * M ^ ((p - 1) * j)
        ≡ 0 * M ^ ((p - 1) * j) [MOD p] := h0.mul_right _
      _ = 0 := by ring
      _ ≡ M [MOD p] := h0.symm
  · have hcop : Nat.Coprime M p :=
      ((Nat.Prime.coprime_iff_not_dvd hp).mpr hdvd).symm
    have heuler : M ^ (p - 1) ≡ 1 [MOD p] := by
      have h := Nat.ModEq.pow_totient hcop
      rwa [Nat.totient_prime hp] at h
    calc M ^ (1 + (p - 1) * j) = M * (M ^ (p - 1)) ^ j := by
          rw [pow_add, pow_one, pow_mul]
      _ ≡ M * 1 ^ j [MOD p] := Nat.ModEq.mul_left M (heuler.pow j)
      _ = M := by ring

/-- The RSA core identity: for distinct primes `p`, `q` and exponents with
`E * D ≡ 1` modulo `(p-1)*(q-1)`, raising to the `E * D` fixes every residue
modulo `p * q` (via the Chinese remainder theorem, also for messages sharing
a factor with the modulus). -/
theorem rsa_core {p q : Nat} (hp : p.Prime) (hq : q.Prime) (hpq : p ≠ q)
    {E D : Nat} (hED : (E * D) % ((p - 1) * (q - 1)) = 1) (M : Nat) :
    M ^ (E * D) ≡ M [MOD p * q] := by
  obtain ⟨k, hk⟩ : ∃ k, E * D = 1 + (p - 1) * (q - 1) * k := by
    refine ⟨E * D / ((p - 1) * (q - 1)), ?_⟩
    have h1 := Nat.div_add_mod (E * D) ((p - 1) * (q - 1))
    omega
  have hmodp : M ^ (E * D) ≡ M [MOD p] := by
    have harr : E * D = 1 + (p - 1) * ((q - 1) * k) := by rw [hk]; ring
    rw [harr]
    exact rsa_fermat_step p hp M _
  have hmodq : M ^ (E * D) ≡ M [MOD q] := by
    have harr : E * D = 1 + (q - 1) * ((p - 1) * k) := by rw [hk]; ring
    rw [harr]
    exact rsa_fermat_step q hq M _
  exact (Nat.modEq_and_modEq_iff_modEq_mul
    ((Nat.coprime_primes hp hq).mpr hpq)).mp ⟨hmodp, hmodq⟩

/-- Claim C1 (amended): for distinct positive primes `p` and `q` with
`n = p * q`, whenever the scan of `choose_e` succeeds with `some e`, setting
`d = choose_d e p q` makes decryption of an encryption (through the
`communication_party` methods) restore every message `0 ≤ m < n`.
(The unamended claim quantifies over all distinct prime pairs, but for
`p = 2`, `q = 3` the scan of `choose_e` finds no exponent at all — see the
counterexample theorem.) -/
theorem rsa_round_trip (s : communication_party) (p q : Nat) (e m : Int)
    (hp : p.Prime) (hq : q.Prime) (hpq : p ≠ q)
    (he : choose_e (p : Int) (q : Int) = some e)
    (hm0 : 0 ≤ m) (hmn : m < (p : Int) * (q : Int)) :
    (s.decrypt (s.encrypt m e ((p : Int) * (q : Int))).2
        (choose_d e (p : Int) (q : Int)) ((p : Int) * (q : Int))).2 = m := by
  have hp2 : 2 ≤ p := hp.two_le
  have hq2 : 2 ≤ q := hq.two_le
  have ht : compute_totient (p : Int) (q : Int) =
      (((p - 1) * (q - 1) : Nat) : Int) := by
    unfold compute_totient
    rw [Nat.cast_mul, Nat.cast_sub (show 1 ≤ p by omega),
      Nat.cast_sub (show 1 ≤ q by omega), Nat.cast_one]
  rw [choose_e_def, pyRange_find?_some_iff
    ((compute_totient (p : Int) (q : Int) - 1 - 2).toNat) 2 _ rfl] at he
  obtain ⟨he2, helt, hetest, -⟩ := he
  have hgcdInt : Int.gcd e (compute_totient (p : Int) (q : Int)) = 1 :=
    (choose_e_test_iff he2 helt).mp hetest
  rw [ht] at helt hgcdInt
  have hT4 : 4 ≤ (p - 1) * (q - 1) := by omega
  have h1T : (1 : Int) < (((p - 1) * (q - 1) : Nat) : Int) := by omega
  have hchoose_d : choose_d e (p : Int) (q : Int) =
      modular_inverse e (((p - 1) * (q - 1) : Nat) : Int) := by
    show modular_inverse e (compute_totient (p : Int) (q : Int)) = _
    rw [ht]
  obtain ⟨hd0, hdlt, hde⟩ := modular_inverse_spec e h1T hgcdInt
  obtain ⟨E, hE⟩ : ∃ E : Nat, e = (E : Int) :=
    ⟨e.toNat, (Int.toNat_of_nonneg (by omega)).symm⟩
  obtain ⟨D, hD⟩ : ∃ D : Nat,
      modular_inverse e (((p - 1) * (q - 1) : Nat) : Int) = (D : Int) :=
    ⟨_, (Int.toNat_of_nonneg hd0).symm⟩
  obtain ⟨M, hM⟩ : ∃ M : Nat, m = (M : Int) :=
    ⟨m.toNat, (Int.toNat_of_nonneg hm0).symm⟩
  have hED : (E * D) % ((p - 1) * (q - 1)) = 1 := by
    rw [hD] at hde
    rw [hE] at hde
    have h2 : (((E * D) % ((p - 1) * (q - 1)) : Nat) : Int) = ((1 : Nat) : Int) := by
      rw [Int.natCast_mod, Nat.cast_mul, Nat.cast_one]
      exact hde
    exact_mod_cast h2
  have hpqcast : ((p : Int)) * (q : Int) = ((p * q : Nat) : Int) := by
    push_cast; ring
  have hMlt : M < p * q := by
    rw [hM, hpqcast] at hmn
    exact_mod_cast hmn
  have hcong := rsa_core hp hq hpq hED M
  have hNnn : (0 : Int) ≤ ((p * q : Nat) : Int) := by positivity
  rw [hpqcast, hchoose_d, hD, hM, hE]
  show py_pow (py_pow ((M : Nat) : Int) ((E : Nat) : Int) ((p * q : Nat) : Int))
      ((D : Nat) : Int) ((p * q : Nat) : Int) = ((M : Nat) : Int)
  unfold py_pow
  rw [Int.fmod_eq_emod _ hNnn, Int.fmod_eq_emod _ hNnn]
  simp only [Int.toNat_natCast]
  have hfinal1 : (((M ^ E % (p * q) : Nat)) : Int) =
      (((M : Nat) : Int) ^ E) % ((p * q : Nat) : Int) := by
    rw [Int.natCast_mod, Nat.cast_pow]
  rw [← hfinal1]
  have hfinal2 : ((((M ^ E % (p * q)) ^ D % (p * q) : Nat)) : Int) =
      ((((M ^ E % (p * q) : Nat)) : Int) ^ D) % ((p * q : Nat) : Int) := by
    rw [Int.natCast_mod, Nat.cast_pow]
  rw [← hfinal2]
  have hnat : (M ^ E % (p * q)) ^ D % (p * q) = M := by
    rw [← Nat.pow_mod, ← pow_mul]
    calc M ^ (E * D) % (p * q) = M % (p * q) := hcong
      _ = M := Nat.mod_eq_of_lt hMlt
  rw [hnat]

/-- Witness for (amended) claim C1: the prime pair `(3, 5)` with
`choose_e 3 5 = some 3`, message `m = 2`: the round trip through the
`communication_party` methods returns 2. -/
theorem rsa_round_trip_witness :
    ((communication_party.mk 11 17).decrypt
        ((communication_party.mk 11 17).encrypt 2 3
          (((3 : Nat) : Int) * ((5 : Nat) : Int))).2
        (choose_d 3 ((3 : Nat) : Int) ((5 : Nat) : Int))
        (((3 : Nat) : Int) * ((5 : Nat) : Int))).2 = 2 :=
  rsa_round_trip (communication_party.mk 11 17) 3 5 3 2 (by norm_num)
    (by norm_num) (by norm_num) (by decide) (by norm_num) (by norm_num)

/-- Counterexample to claim C1 as stated: `p = 2` and `q = 3` are distinct
primes, yet `choose_e` finds no public exponent at all — its scan range
`range(2, φ - 1) = range(2, 1)` is empty and it falls through to Python
`None` — so there is no `e` for which the claimed round trip could even be
formed (in the source, `choose_d(None, 2, 3)` is moreover a type error). -/
theorem rsa_round_trip_counterexample :
    Nat.Prime 2 ∧ Nat.Prime 3 ∧ (2 : Nat) ≠ 3 ∧
      choose_e ((2 : Nat) : Int) ((3 : Nat) : Int) = none ∧
      ¬ ∃ e : Int, choose_e ((2 : Nat) : Int) ((3 : Nat) : Int) = some e := by
  refine ⟨Nat.prime_two, Nat.prime_three, by decide, by decide, ?_⟩
  rintro ⟨e, he⟩
  rw [show choose_e ((2 : Nat) : Int) ((3 : Nat) : Int) = none by decide] at he
  exact Option.noConfusion he
